import Mathlib

/-!
Verification of the `ssh-packet` SSH 2.0 binary codec.

The Rust source is shallowly embedded: byte buffers become `List Nat`
(each element a byte value), `u8`/`u32`/`usize` arithmetic becomes `Nat`
arithmetic with explicit `% 2 ^ w` reductions where the source casts,
fallible operations return `Option`, and the abstract cipher traits
(`CipherCore`, `OpeningCipher`, `SealingCipher`) become structures of
functions. The packet read/write orchestration additionally records the
trace of cipher operations it performs, so ordering properties of the
pipeline can be stated.
-/

namespace Ssh

/-- Interpret four byte values as a big-endian `u32`
(embedding `u32::from_be_bytes`). -/
def be32 (a b c d : Nat) : Nat :=
  ((a * 256 + b) * 256 + c) * 256 + d

/-- Interpret the first four elements of a list as a big-endian `u32`
(embedding `u32::from_be_bytes` applied to `buf[..4]`). -/
def be32l (l : List Nat) : Nat :=
  (l.take 4).foldl (fun a x => a * 256 + x) 0

/-- Big-endian byte serialization of a `u32`
(embedding `(n as u32).to_be_bytes()`, which truncates modulo `2 ^ 32`). -/
def u32beBytes (n : Nat) : List Nat :=
  [n % 2 ^ 32 / 2 ^ 24, n % 2 ^ 32 / 2 ^ 16 % 256, n % 2 ^ 32 / 2 ^ 8 % 256, n % 2 ^ 32 % 256]

namespace Bytes

/-- Wire encoding of `Bytes` from `src/arch/bytes.rs`: a big-endian `u32`
length prefix (`payload.len() as u32`) followed by the payload verbatim. -/
def write (payload : List Nat) : List Nat :=
  u32beBytes payload.length ++ payload

/-- Wire decoding of `Bytes` from `src/arch/bytes.rs`: read four bytes as a
big-endian length, then exactly that many payload bytes; `none` when the
input is too short.  Returns the payload together with the unread rest. -/
def read (s : List Nat) : Option (List Nat × List Nat) :=
  match s with
  | a :: b :: c :: d :: rest =>
    let n := be32 a b c d
    if rest.length < n then none else some (rest.take n, rest.drop n)
  | _ => none

end Bytes

namespace MpInt

/-- `MpInt::new` from `src/arch/mpint.rs`: prepend a `0x00` byte when the
first byte of the buffer has its high bit set; otherwise keep the buffer
unchanged.  No leading-zero stripping is performed. -/
def new (b : List Nat) : List Nat :=
  match b with
  | x :: t => if 128 ≤ x then 0 :: x :: t else x :: t
  | [] => []

/-- Wire encoding of an `MpInt`: the derived `binrw` instance writes the
inner `Bytes`, i.e. the canonicalized buffer with its length prefix. -/
def write (b : List Nat) : List Nat :=
  Bytes.write (new b)

/-- Wire decoding of an `MpInt`: the derived `binrw` instance delegates to
the `Bytes` decoder with no further checks. -/
def read (s : List Nat) : Option (List Nat × List Nat) :=
  Bytes.read s

/-- Modelled from the spec sentence for this claim (not from the source):
"strip redundant leading zero bytes down to the minimum needed, then
prepend one `0x00` iff the resulting first byte's high bit is set". -/
def canonSpec (b : List Nat) : List Nat :=
  let s := b.dropWhile (fun x => x == 0)
  match s with
  | x :: _ => if 128 ≤ x then 0 :: s else s
  | [] => []

end MpInt

/-- Rust `char::is_ascii`: the code point is at most `0x7F`. -/
def isAsciiChar (c : Char) : Bool :=
  c.toNat ≤ 127

namespace StringAscii

/-- `StringAscii::new` from `src/message/arch/string.rs`: keep only the
ASCII characters of the input, silently dropping the others. -/
def new (s : List Char) : List Char :=
  s.filter isAsciiChar

/-- Wire encoding of a `StringAscii`: the characters' code points behind a
`u32` length prefix (via the inner `StringUtf8` and `Bytes`). -/
def write (s : List Char) : List Nat :=
  Bytes.write (s.map Char.toNat)

end StringAscii

namespace NameList

/-- `NameList::new` from `src/arch/namelist.rs`: join the names with `,`
and construct the inner `StringAscii` from the joined text. -/
def new (names : List (List Char)) : List Char :=
  StringAscii.new (List.intercalate [','] names)

/-- The iteration order of a `NameList` (`IntoIterator for &NameList`):
split the underlying string on `,` and drop empty tokens. -/
def tokens (s : List Char) : List (List Char) :=
  (s.splitOn ',').filter (fun t => !t.isEmpty)

/-- `NameList::preferred_in`: the first name of `self`'s iteration order
that also occurs in `other`'s iteration order. -/
def preferred_in (a b : List Char) : Option (List Char) :=
  (tokens a).find? (fun name => (tokens b).any (fun n => name == n))

end NameList

/-- `PACKET_MAX_SIZE` from `src/packet/mod.rs` (and `src/packet.rs`). -/
def PACKET_MAX_SIZE : Nat := 65535

/-- `PACKET_MIN_SIZE` from `src/packet/mod.rs`. -/
def PACKET_MIN_SIZE : Nat := 16

namespace CipherCore

/-- `CipherCore::padding` from `src/packet/cipher.rs`, parametrized by the
cipher's block size and the MAC's encrypt-then-MAC flag.  The source
computes in `usize` and returns the result cast `as u8`, hence the final
`% 256`. -/
def padding (blockSize : Nat) (etm : Bool) (payload : Nat) : Nat :=
  let align := max blockSize 8
  let size := if etm then 1 + payload else 4 + 1 + payload
  let pad0 := align - size % align
  let pad1 := if pad0 < 4 then pad0 + align else pad0
  (if size + pad1 < max blockSize PACKET_MIN_SIZE then pad1 + align else pad1) % 256

/-- Modelled from the spec sentence for this claim (not from the source):
the minimal `p ≥ 0` such that `(size + p) % align = 0`, in closed form. -/
def minPad (size align : Nat) : Nat :=
  if size % align = 0 then 0 else align - size % align

/-- The number of header bytes the padding is aligned over: only the
`padding_length` byte in encrypt-then-MAC mode, the `u32` length field and
the `padding_length` byte otherwise. -/
def headerLen (etm : Bool) : Nat :=
  if etm then 1 else 4 + 1

/-- Modelled from the spec sentence for this claim (not from the source):
the reference padding algorithm as worded in the specification. -/
def paddingSpec (blockSize : Nat) (etm : Bool) (payload : Nat) : Nat :=
  let align := max blockSize 8
  let p0 := minPad (headerLen etm + payload) align
  let p1 := if p0 < 4 then p0 + align else p0
  if headerLen etm + payload + p1 < max blockSize 16 then p1 + align else p1

end CipherCore

/-- One transport or cipher operation performed by the packet codec,
recorded in invocation order. -/
inductive COp where
  | readBytes (n : Nat)
  | decryptOp (data : List Nat)
  | openOp (data : List Nat) (mac : List Nat)
  | compressOp (data : List Nat)
  | padOp (data : List Nat) (padding : Nat)
  | encryptOp (data : List Nat)
  | sealOp (data : List Nat)
  deriving DecidableEq

/-- The `OpeningCipher` capability contract from `src/packet/cipher.rs`
(flattened together with its `CipherCore` and `Mac` descriptors).
`decrypt` operates in place on a `&mut [u8]` in the source, so it is
length preserving by construction (`decrypt_length`).  `openBuf` models
`open` as a verification predicate, `decompress` may fail. -/
structure OpeningCipher where
  blockSize : Nat
  macSize : Nat
  etm : Bool
  decrypt : List Nat → List Nat
  openBuf : List Nat → List Nat → Nat → Bool
  decompress : List Nat → Option (List Nat)
  decrypt_length : ∀ l, (decrypt l).length = l.length

/-- Error outcomes of the packet read paths, following the specification's
error taxonomy. -/
inductive ReadErr where
  | truncated
  | badLength
  | packetTooSmall
  | badPadding
  | macMismatch
  | decompressFailed
  deriving DecidableEq

/-- Outcome of a packet read: a successfully decoded payload, a typed
error, or a Rust panic at one of the two partial slicing operations of
`Packet::from_async_reader` (`buf[..4]` and `buf[cipher.block_size()..]`).
`okOld` carries the richer `Packet` structure of the earlier revision. -/
inductive ReadResult where
  | ok (payload : List Nat)
  | okOld (payload padding mac : List Nat)
  | err (e : ReadErr)
  | panicLenSlice
  | panicRestSlice
  deriving DecidableEq

namespace Packet

/-- The first cipher block as the length-parsing code of
`Packet::from_async_reader` sees it: the first `block_size()` bytes of the
stream, raw in encrypt-then-MAC mode and decrypted otherwise. -/
def declBuf (c : OpeningCipher) (s : List Nat) : List Nat :=
  if c.etm then s.take c.blockSize else c.decrypt (s.take c.blockSize)

/-- The `packet_length` a stream declares under cipher `c`:
`u32::from_be_bytes(buf[..4])` of the (possibly decrypted) first block. -/
def declLen (c : OpeningCipher) (s : List Nat) : Nat :=
  be32l (declBuf c s)

/-- The completed frame buffer of `Packet::from_async_reader` right after
the second `read_exact`: the (possibly decrypted) first block followed by
the remaining `4 + len − block_size()` raw stream bytes. -/
def rawFrame (c : OpeningCipher) (s : List Nat) : List Nat :=
  declBuf c s ++ (s.drop c.blockSize).take (4 + declLen c s - c.blockSize)

/-- The MAC bytes `Packet::from_async_reader` reads after the frame. -/
def macBytes (c : OpeningCipher) (s : List Nat) : List Nat :=
  ((s.drop c.blockSize).drop (4 + declLen c s - c.blockSize)).take c.macSize

/-- The tail of `Packet::from_async_reader` after MAC processing: split
off `padding_length`, validate it against `len`, extract the payload and
decompress it. -/
def parseBody (c : OpeningCipher) (len : Nat) (plain : List Nat)
    (tr : List COp) (consumed : Nat) : ReadResult × List COp × Nat :=
  match plain.drop 4 with
  | [] => (.err .packetTooSmall, tr, consumed)
  | padlen :: body =>
    if len - 1 < padlen then (.err .badPadding, tr, consumed)
    else
      match c.decompress (body.take (len - padlen - 1)) with
      | none => (.err .decompressFailed, tr, consumed)
      | some p => (.ok p, tr, consumed)

/-- `Packet::from_async_reader` from `src/packet/mod.rs`.  Returns the
outcome, the ordered trace of transport reads and cipher operations, and
the number of bytes consumed from the source.  The two partial slicing
operations of the source surface as `panicLenSlice` (`buf[..4]` with a
block shorter than 4) and `panicRestSlice` (`buf[cipher.block_size()..]`
after resizing the buffer to `4 + len < block_size` bytes). -/
def fromAsyncReader (c : OpeningCipher) (s : List Nat) (seq : Nat) :
    ReadResult × List COp × Nat :=
  if s.length < c.blockSize then (.err .truncated, [], 0) else
  let s1 := s.drop c.blockSize
  let buf1 := declBuf c s
  let tr1 := COp.readBytes c.blockSize ::
    (if c.etm then [] else [COp.decryptOp (s.take c.blockSize)])
  if buf1.length < 4 then (.panicLenSlice, tr1, c.blockSize) else
  let len := declLen c s
  if 65535 < len then (.err .badLength, tr1, c.blockSize) else
  if 4 + len < c.blockSize then (.panicRestSlice, tr1, c.blockSize) else
  let restLen := 4 + len - c.blockSize
  if s1.length < restLen then (.err .truncated, tr1, c.blockSize) else
  let rest := s1.take restLen
  let s2 := s1.drop restLen
  let tr2 := tr1 ++ [COp.readBytes restLen]
  if s2.length < c.macSize then (.err .truncated, tr2, c.blockSize + restLen) else
  let mac := s2.take c.macSize
  let tr3 := tr2 ++ [COp.readBytes c.macSize]
  let consumed := c.blockSize + restLen + c.macSize
  let frame := buf1 ++ rest
  if c.etm then
    let tr4 := tr3 ++ [COp.openOp frame mac]
    if c.openBuf frame mac seq then
      parseBody c len (frame.take 4 ++ c.decrypt (frame.drop 4))
        (tr4 ++ [COp.decryptOp (frame.drop 4)]) consumed
    else (.err .macMismatch, tr4, consumed)
  else
    let plain := frame.take c.blockSize ++ c.decrypt (frame.drop c.blockSize)
    let tr4 := tr3 ++ [COp.decryptOp (frame.drop c.blockSize), COp.openOp plain mac]
    if c.openBuf plain mac seq then
      parseBody c len plain tr4 consumed
    else (.err .macMismatch, tr4, consumed)

end Packet

/-- The `OpeningCipher` contract of the earlier revision
(`src/packet.rs`): only a MAC length and an in-place `decrypt`. -/
structure OpeningCipherO where
  macLen : Nat
  decrypt : List Nat → List Nat
  decrypt_length : ∀ l, (decrypt l).length = l.length

/-- Wrapping 64-bit `usize` subtraction, as release-mode Rust computes
`a - b` (both arguments below `2 ^ 64` in every use here). -/
def wsub (a b : Nat) : Nat :=
  (a % 2 ^ 64 + 2 ^ 64 - b % 2 ^ 64) % 2 ^ 64

namespace Packet

/-- `OpeningCipher::decrypt_len` from `src/packet.rs`: the four length
bytes are decrypted only when the cipher has no MAC. -/
def decryptLenO (c : OpeningCipherO) (b : List Nat) : Nat :=
  if c.macLen = 0 then be32l (c.decrypt b) else be32l b

/-- `Packet::from_reader` from `src/packet.rs` (the earlier revision).
Returns the outcome and the number of bytes consumed from the source.
The `usize` subtractions involving `len` wrap as in release-mode Rust
(`wsub`). -/
def fromReader (c : OpeningCipherO) (s : List Nat) : ReadResult × Nat :=
  if s.length < 4 then (.err .truncated, 0) else
  let len := decryptLenO c (s.take 4)
  if 65535 < len then (.err .badLength, 4) else
  let s1 := s.drop 4
  if s1.length < 1 then (.err .truncated, 4) else
  let padlen := (c.decrypt (s1.take 1)).headD 0
  if wsub len 1 < padlen then (.err .badPadding, 5) else
  let payloadLen := wsub (wsub len padlen) 1
  let s2 := s1.drop 1
  if s2.length < payloadLen then (.err .truncated, 5) else
  let payload := s2.take payloadLen
  let s3 := s2.drop payloadLen
  if s3.length < padlen then (.err .truncated, 5 + payloadLen) else
  let padding := s3.take padlen
  let s4 := s3.drop padlen
  if s4.length < c.macLen then (.err .truncated, 5 + payloadLen + padlen) else
  (.okOld payload padding (s4.take c.macLen), 5 + payloadLen + padlen + c.macLen)

end Packet

/-- The `SealingCipher` capability contract from `src/packet/cipher.rs`
(flattened with its `CipherCore` and `Mac` descriptors).  `encrypt`
operates in place in the source, hence `encrypt_length`. -/
structure SealingCipher where
  blockSize : Nat
  etm : Bool
  compress : List Nat → Option (List Nat)
  padBuf : List Nat → Nat → Option (List Nat)
  encrypt : List Nat → List Nat
  sealBuf : List Nat → Nat → Option (List Nat)
  encrypt_length : ∀ l, (encrypt l).length = l.length

/-- Outcome of a packet write: the emitted bytes, or a propagated cipher
error. -/
inductive WriteResult where
  | ok (out : List Nat)
  | cipherErr
  deriving DecidableEq

namespace Packet

/-- `Packet::to_async_writer` from `src/packet/mod.rs`.  Returns the
outcome (the frame followed by the MAC) and the ordered trace of cipher
operations. -/
def toAsyncWriter (c : SealingCipher) (payload : List Nat) (seq : Nat) :
    WriteResult × List COp :=
  match c.compress payload with
  | none => (.cipherErr, [COp.compressOp payload])
  | some compressed =>
    let pd := CipherCore.padding c.blockSize c.etm compressed.length
    match c.padBuf compressed pd with
    | none => (.cipherErr, [COp.compressOp payload, COp.padOp compressed pd])
    | some padded =>
      let buf := u32beBytes padded.length ++ padded
      if c.etm then
        let buf2 := buf.take 4 ++ c.encrypt (buf.drop 4)
        match c.sealBuf buf2 seq with
        | none => (.cipherErr, [COp.compressOp payload, COp.padOp compressed pd,
            COp.encryptOp (buf.drop 4), COp.sealOp buf2])
        | some mac => (.ok (buf2 ++ mac), [COp.compressOp payload,
            COp.padOp compressed pd, COp.encryptOp (buf.drop 4), COp.sealOp buf2])
      else
        match c.sealBuf buf seq with
        | none => (.cipherErr, [COp.compressOp payload, COp.padOp compressed pd,
            COp.sealOp buf])
        | some mac => (.ok (c.encrypt buf ++ mac), [COp.compressOp payload,
            COp.padOp compressed pd, COp.sealOp buf, COp.encryptOp buf])

end Packet

/-- A concrete identity ETM opening cipher (block size 8, no MAC bytes)
used to witness the read-path claims. -/
def cipherC3 : OpeningCipher :=
  ⟨8, 0, true, fun l => l, fun _ _ _ => true, fun l => some l, fun _ => rfl⟩

/-- A well-formed 16-byte stream declaring `packet_length = 12`. -/
def streamC3 : List Nat := [0, 0, 0, 12, 4, 1, 2, 3, 4, 5, 6, 7, 9, 9, 9, 9]

/-- A concrete identity ETM opening cipher with block size 16 used to
witness the slice panic. -/
def cipherC9 : OpeningCipher :=
  ⟨16, 0, true, fun l => l, fun _ _ _ => true, fun l => some l, fun _ => rfl⟩

/-- A 16-byte stream declaring `packet_length = 0 < block_size − 4`. -/
def streamC9 : List Nat := List.replicate 16 0

/-- A concrete ETM identity opening cipher with block size 8 used in the
C1 counterexample and witness. -/
def cipherC1 : OpeningCipher :=
  ⟨8, 0, true, fun l => l, fun _ _ _ => true, fun l => some l, fun _ => rfl⟩

/-- An 8-byte stream declaring `packet_length = 65532`. -/
def streamC1 : List Nat := [0, 0, 255, 252, 0, 0, 0, 0]

/-- The earlier revision's cipher used in the C1 witness: a MAC of one
byte, so the length field is not decrypted. -/
def cipherC1O : OpeningCipherO := ⟨1, fun l => l, fun _ => rfl⟩

/-- A 4-byte stream declaring `packet_length = 65536` for `from_reader`. -/
def streamC1O : List Nat := [0, 1, 0, 0]

/-- An 8-byte stream declaring `packet_length = 65536` for
`from_async_reader`. -/
def streamC1b : List Nat := [0, 1, 0, 0, 0, 0, 0, 0]

/-- Recognizer for `sealOp` trace entries. -/
def isSealOp : COp → Bool
  | COp.sealOp _ => true
  | _ => false

/-- Recognizer for `encryptOp` trace entries. -/
def isEncryptOp : COp → Bool
  | COp.encryptOp _ => true
  | _ => false

/-- A concrete non-ETM sealing cipher: identity encryption, `pad` prefixes
the padding length, `seal` returns the MAC `[9]`. -/
def cipherC4 : SealingCipher :=
  ⟨8, false, fun l => some l, fun b p => some (p :: b), fun l => l,
   fun _ _ => some [9], fun _ => rfl⟩

/-- A concrete ETM sealing cipher used to witness the write order. -/
def cipherC4w : SealingCipher :=
  ⟨8, true, fun l => some l, fun b p => some (p :: b), fun l => l,
   fun _ _ => some [7], fun _ => rfl⟩

/-! ## Helper lemmas -/

theorem u32beBytes_length (n : Nat) : (u32beBytes n).length = 4 := rfl

theorem be32l_u32beBytes (n : Nat) : be32l (u32beBytes n) = n % 2 ^ 32 := by
  simp only [u32beBytes, be32l, List.take, List.foldl]
  omega

theorem be32l_cons (a b c d : Nat) (rest : List Nat) :
    be32l (a :: b :: c :: d :: rest) = be32 a b c d := by
  simp [be32l, be32, List.take, List.foldl]

theorem Bytes.read_cons (a b c d : Nat) (rest : List Nat) :
    Bytes.read (a :: b :: c :: d :: rest) =
      if rest.length < be32 a b c d then none
      else some (rest.take (be32 a b c d), rest.drop (be32 a b c d)) := rfl

theorem mpInt_new_eq (b : List Nat) :
    MpInt.new b = match b.head? with
      | some x => if 128 ≤ x then 0 :: b else b
      | none => b := by
  cases b <;> rfl

theorem mpInt_write_body (b : List Nat) :
    (MpInt.write b).drop 4 = MpInt.new b := by
  simp [MpInt.write, Bytes.write, u32beBytes]

theorem CipherCore.minPad_mod (size align : Nat) (h : 0 < align) :
    (size + minPad size align) % align = 0 := by
  unfold minPad
  by_cases h0 : size % align = 0
  · simp [h0]
  · rw [if_neg h0]
    have hd := Nat.div_add_mod size align
    have hlt : size % align < align := Nat.mod_lt _ h
    have : size + (align - size % align) = align * (size / align + 1) := by
      rw [Nat.mul_add, Nat.mul_one]
      omega
    rw [this, Nat.mul_mod_right]

theorem CipherCore.minPad_minimal (size align : Nat) (h : 0 < align) (q : Nat)
    (hq : (size + q) % align = 0) : minPad size align ≤ q := by
  unfold minPad
  by_cases h0 : size % align = 0
  · simp [h0]
  · rw [if_neg h0]
    by_contra hlt
    push_neg at hlt
    have hda := Nat.div_add_mod size align
    have hmlt : size % align < align := Nat.mod_lt _ h
    have hsum : size + q = align * (size / align) + (size % align + q) := by omega
    have hsmall : size % align + q < align := by omega
    rw [hsum, Nat.mul_add_mod, Nat.mod_eq_of_lt hsmall] at hq
    omega

theorem CipherCore.minPad_lt (size align : Nat) (h : 0 < align) : minPad size align < align := by
  unfold minPad
  by_cases h0 : size % align = 0
  · simp [h0, h]
  · rw [if_neg h0]
    have : size % align < align := Nat.mod_lt _ h
    omega

theorem CipherCore.padding_eq_paddingSpec_mod (bs : Nat) (etm : Bool) (l : Nat) :
    padding bs etm l = paddingSpec bs etm l % 256 := by
  have hal : 8 ≤ max bs 8 := le_max_right _ _
  have hsize : (if etm then 1 + l else 4 + 1 + l) = headerLen etm + l := by
    cases etm <;> simp [headerLen]
  unfold padding paddingSpec minPad PACKET_MIN_SIZE
  simp only []
  rw [hsize]
  set a := max bs 8 with ha
  set s := headerLen etm + l with hs
  by_cases h0 : s % a = 0
  · rw [h0]
    have h4 : ¬ a < 4 := by omega
    simp [h4]
  · rw [if_neg h0]

theorem CipherCore.paddingSpec_props (bs : Nat) (etm : Bool) (l : Nat) :
    4 ≤ paddingSpec bs etm l
    ∧ (headerLen etm + l + paddingSpec bs etm l) % max bs 8 = 0
    ∧ (bs ≤ 252 → paddingSpec bs etm l ≤ 255) := by
  have hal : 8 ≤ max bs 8 := le_max_right _ _
  have halpos : 0 < max bs 8 := by omega
  have hbsle : bs ≤ max bs 8 := le_max_left _ _
  unfold paddingSpec
  set a := max bs 8 with ha
  set s := headerLen etm + l with hs
  have hs1 : 1 ≤ s := by
    cases etm
    · simp [hs, headerLen]
      omega
    · simp [hs, headerLen]
  set p0 := minPad s a with hp0
  have h0mod : (s + p0) % a = 0 := minPad_mod s a halpos
  have h0lt : p0 < a := minPad_lt s a halpos
  set p1 := if p0 < 4 then p0 + a else p0 with hp1
  have h1ge : 4 ≤ p1 := by
    rw [hp1]; split <;> omega
  have h1le : p1 ≤ a + 3 := by
    rw [hp1]; split <;> omega
  have h1mod : (s + p1) % a = 0 := by
    rw [hp1]; split
    · rw [← Nat.add_assoc, Nat.add_mod_right]; exact h0mod
    · exact h0mod
  simp only [← hp1]
  split
  case isTrue hlt =>
    have hdvd : a ∣ (s + p1) := Nat.dvd_of_mod_eq_zero h1mod
    have hle : a ≤ s + p1 := Nat.le_of_dvd (by omega) hdvd
    have hbs16 : bs < 16 := by
      by_contra hb
      push_neg at hb
      have : max bs 16 = bs := by omega
      omega
    have h16 : max bs 16 = 16 := by omega
    have ha16 : a < 16 := by omega
    refine ⟨by omega, ?_, by omega⟩
    rw [← Nat.add_assoc, Nat.add_mod_right]
    exact h1mod
  case isFalse hge =>
    refine ⟨by omega, h1mod, by omega⟩

/-! ## General-purpose helper lemmas -/

theorem be32_digits (n : Nat) :
    be32 (n % 2 ^ 32 / 2 ^ 24) (n % 2 ^ 32 / 2 ^ 16 % 256) (n % 2 ^ 32 / 2 ^ 8 % 256)
      (n % 2 ^ 32 % 256) = n % 2 ^ 32 := by
  unfold be32
  omega

theorem find?_decomp {α : Type} (p : α → Bool) :
    ∀ (l : List α) (a : α), l.find? p = some a →
      ∃ s t, l = s ++ a :: t ∧ p a = true ∧ ∀ x ∈ s, p x = false := by
  intro l
  induction l with
  | nil => intro a h; simp [List.find?] at h
  | cons b l ih =>
    intro a h
    by_cases hb : p b
    · rw [List.find?_cons_of_pos _ hb] at h
      obtain rfl : b = a := by injection h
      exact ⟨[], l, rfl, hb, by simp⟩
    · rw [List.find?_cons_of_neg _ hb] at h
      obtain ⟨s, t, hl, hpa, hs⟩ := ih a h
      refine ⟨b :: s, t, by simp [hl], hpa, ?_⟩
      intro x hx
      rcases List.mem_cons.mp hx with rfl | hx
      · exact Bool.eq_false_iff.mpr hb
      · exact hs x hx

theorem any_beq_iff_mem (l : List (List Char)) (t : List Char) :
    (l.any (fun n => t == n) = true) ↔ t ∈ l := by
  rw [List.any_eq_true]
  constructor
  · rintro ⟨x, hx, he⟩
    exact (beq_iff_eq.mp he) ▸ hx
  · intro h
    exact ⟨t, h, beq_self_eq_true t⟩

/-! ## Claims -/

theorem declBuf_length (c : OpeningCipher) (s : List Nat) (h : c.blockSize ≤ s.length) :
    (Packet.declBuf c s).length = c.blockSize := by
  unfold Packet.declBuf
  split
  · rw [List.length_take]
    omega
  · rw [c.decrypt_length, List.length_take]
    omega

theorem parseBody_trace (c : OpeningCipher) (len : Nat) (plain : List Nat)
    (tr : List COp) (consumed : Nat) :
    (Packet.parseBody c len plain tr consumed).2.1 = tr := by
  unfold Packet.parseBody
  cases hpd : plain.drop 4 with
  | nil => rfl
  | cons padlen body =>
    dsimp only
    split
    · rfl
    · cases hd : c.decompress (body.take (len - padlen - 1)) <;> simp [hd]

theorem parseBody_fst_ne_panicRest (c : OpeningCipher) (len : Nat) (plain : List Nat)
    (tr : List COp) (consumed : Nat) :
    (Packet.parseBody c len plain tr consumed).1 ≠ ReadResult.panicRestSlice := by
  unfold Packet.parseBody
  cases hpd : plain.drop 4 with
  | nil => simp
  | cons padlen body =>
    dsimp only
    split
    · simp
    · cases hd : c.decompress (body.take (len - padlen - 1)) <;> simp [hd]

/-! ## Claims -/

/-- Claim C1, counterexample: with an ETM identity cipher of block size 8
and a stream declaring `packet_length = 65532` (so `4 + packet_length =
65536 > PACKET_MAX_SIZE`), the read does not fail with `BadLength`: the
length check passes and the code goes on to read further bytes (failing
here with a truncation error since the stream ends). -/
theorem claim1_counterexample :
    65535 < 4 + Packet.declLen cipherC1 streamC1
    ∧ Packet.declLen cipherC1 streamC1 ≤ 65535
    ∧ (Packet.fromAsyncReader cipherC1 streamC1 0).1 = ReadResult.err ReadErr.truncated
    ∧ (Packet.fromAsyncReader cipherC1 streamC1 0).1
        ≠ ReadResult.err ReadErr.badLength := by decide

/-- Claim C1 (amended): whenever the declared `packet_length` itself
exceeds `PACKET_MAX_SIZE` (65535), both `Packet::from_async_reader` and
the earlier revision's `Packet::from_reader` fail with `BadLength`
immediately after parsing the length field: exactly the length-bearing
bytes have been consumed, no further transport reads or cipher operations
happen, and no buffer sized by `packet_length` is built. -/
theorem claim1_badlength (c : OpeningCipher) (s : List Nat) (q : Nat)
    (cO : OpeningCipherO) (sO : List Nat)
    (hb4 : 4 ≤ c.blockSize) (hsl : c.blockSize ≤ s.length)
    (hlen : 65535 < Packet.declLen c s)
    (hs4 : 4 ≤ sO.length) (hlenO : 65535 < Packet.decryptLenO cO (sO.take 4)) :
    Packet.fromAsyncReader c s q =
      (.err .badLength,
        COp.readBytes c.blockSize ::
          (if c.etm then [] else [COp.decryptOp (s.take c.blockSize)]),
        c.blockSize)
    ∧ Packet.fromReader cO sO = (.err .badLength, 4) := by
  constructor
  · have h1 : ¬ s.length < c.blockSize := by omega
    have hdb := declBuf_length c s hsl
    have h2 : ¬ (Packet.declBuf c s).length < 4 := by omega
    simp [Packet.fromAsyncReader, h1, h2, hlen]
  · have h1O : ¬ sO.length < 4 := by omega
    simp [Packet.fromReader, h1O, hlenO]

/-- Claim C1 witness: the amended statement at concrete ciphers and
streams declaring `packet_length = 65536`. -/
theorem claim1_witness :
    (4 ≤ cipherC1.blockSize ∧ cipherC1.blockSize ≤ streamC1b.length
      ∧ 65535 < Packet.declLen cipherC1 streamC1b
      ∧ 4 ≤ streamC1O.length
      ∧ 65535 < Packet.decryptLenO cipherC1O (streamC1O.take 4))
    ∧ (Packet.fromAsyncReader cipherC1 streamC1b 0 =
        (.err .badLength,
          COp.readBytes cipherC1.blockSize ::
            (if cipherC1.etm then []
             else [COp.decryptOp (streamC1b.take cipherC1.blockSize)]),
          cipherC1.blockSize)
      ∧ Packet.fromReader cipherC1O streamC1O = (.err .badLength, 4)) :=
  ⟨⟨by decide, by decide, by decide, by decide, by decide⟩,
   claim1_badlength cipherC1 streamC1b 0 cipherC1O streamC1O
     (by decide) (by decide) (by decide) (by decide) (by decide)⟩

/-- Claim C5, counterexample: the encoding of `MpInt::new [0, 1]` does not
strip the redundant leading zero byte, so its body differs from the
spec-worded canonical form. -/
theorem claim5_counterexample :
    (MpInt.write [0, 1]).drop 4 ≠ MpInt.canonSpec [0, 1] := by decide

/-- Claim C5 (amended): for every byte buffer `b`, encoding `MpInt::new b`
only prepends one `0x00` byte iff `b`'s first byte's high bit is set — no
leading-zero stripping occurs — before length-prefixing; decoding an
`MpInt` is a plain `Bytes` decode with no canonicalization enforced on
read (a non-canonical buffer such as `[0, 0, 5]` decodes unchanged). -/
theorem claim5_mpint_encode_no_strip :
    (∀ b : List Nat, (MpInt.write b).drop 4 =
        match b.head? with
        | some x => if 128 ≤ x then 0 :: b else b
        | none => b)
    ∧ (∀ s, MpInt.read s = Bytes.read s)
    ∧ MpInt.read (Bytes.write [0, 0, 5]) = some ([0, 0, 5], []) :=
  ⟨fun b => by rw [mpInt_write_body, mpInt_new_eq],
   fun _ => rfl,
   by decide⟩

/-- Claim C6: the body of the encoding of `MpInt::new b` (the bytes after
the `u32` length prefix) equals `0x00 ++ b` when `b`'s first byte has its
high bit set and `b` otherwise, and re-applying construction-plus-encoding
to the canonicalized buffer yields the same bytes (idempotence). -/
theorem claim6_mpint_body_idempotent (b : List Nat) :
    ((MpInt.write b).drop 4 =
      match b.head? with
      | some x => if 128 ≤ x then 0 :: b else b
      | none => b)
    ∧ MpInt.write (MpInt.new b) = MpInt.write b := by
  refine ⟨by rw [mpInt_write_body, mpInt_new_eq], ?_⟩
  have h : MpInt.new (MpInt.new b) = MpInt.new b := by
    cases b with
    | nil => rfl
    | cons x t =>
      by_cases h : 128 ≤ x <;> simp [MpInt.new, h]
  unfold MpInt.write
  rw [h]

/-- Claim C8, counterexample: for a buffer of `2 ^ 32` bytes the `u32`
length prefix wraps to zero, so decoding the encoding returns the empty
payload instead of the buffer. -/
theorem claim8_counterexample :
    Bytes.read (Bytes.write (List.replicate (2 ^ 32) 0)) =
      some ([], List.replicate (2 ^ 32) 0)
    ∧ ([] : List Nat) ≠ List.replicate (2 ^ 32) 0 := by
  have h2 : Bytes.write (List.replicate (2 ^ 32) 0) =
      0 :: 0 :: 0 :: 0 :: List.replicate (2 ^ 32) 0 := by
    unfold Bytes.write
    rw [List.length_replicate]
    have h : u32beBytes (2 ^ 32) = [0, 0, 0, 0] := by decide
    rw [h]
    rfl
  have hb : be32 0 0 0 0 = 0 := by decide
  constructor
  · rw [h2]
    rw [Bytes.read_cons, List.length_replicate, hb, if_neg (Nat.not_lt_zero _),
      List.take_zero, List.drop_zero]
  · intro h
    have h3 := congrArg List.length h
    rw [List.length_replicate] at h3
    simp at h3

/-- Claim C8 (amended): for every byte buffer `b` of fewer than `2 ^ 32`
bytes, decoding the encoding of `Bytes b` returns exactly `b` (with no
unread rest); for longer buffers the `u32` length prefix truncates. -/
theorem claim8_bytes_roundtrip (b : List Nat) (h : b.length < 2 ^ 32) :
    Bytes.read (Bytes.write b) = some (b, []) := by
  unfold Bytes.write u32beBytes
  simp only [List.cons_append, List.nil_append]
  rw [Bytes.read_cons, be32_digits, Nat.mod_eq_of_lt h]
  simp only [lt_self_iff_false, if_false, List.take_length, List.drop_length]

/-- Claim C8 witness: the round trip at the concrete buffer `[1, 2, 3]`. -/
theorem claim8_witness :
    ([1, 2, 3] : List Nat).length < 2 ^ 32
    ∧ Bytes.read (Bytes.write [1, 2, 3]) = some ([1, 2, 3], []) :=
  ⟨by decide, claim8_bytes_roundtrip [1, 2, 3] (by decide)⟩

/-- Claim C10: `StringAscii::new` keeps exactly the ASCII characters of its
input (a sublist of the input, unchanged iff the input is all-ASCII), and
`NameList::new` stores the same filtering of the comma-joined names; on a
non-ASCII input the stored text silently differs from the input. -/
theorem claim10_ascii_filtering :
    (∀ s : List Char, StringAscii.new s = s.filter isAsciiChar)
    ∧ (∀ s : List Char, (StringAscii.new s).Sublist s)
    ∧ (∀ s : List Char, (∀ c ∈ s, isAsciiChar c) → StringAscii.new s = s)
    ∧ (∀ names : List (List Char),
        NameList.new names = (List.intercalate [','] names).filter isAsciiChar)
    ∧ StringAscii.new ['a', 'é'] = ['a']
    ∧ StringAscii.new ['a', 'é'] ≠ ['a', 'é'] :=
  ⟨fun _ => rfl,
   fun s => List.filter_sublist s,
   fun _ h => List.filter_eq_self.mpr h,
   fun _ => rfl,
   by decide,
   by decide⟩

/-- Claim C10 witness: the all-ASCII hypothesis discharged at `['a', 'b']`,
where construction preserves the text. -/
theorem claim10_witness :
    (∀ c ∈ (['a', 'b'] : List Char), isAsciiChar c)
    ∧ StringAscii.new ['a', 'b'] = ['a', 'b'] :=
  ⟨by decide, claim10_ascii_filtering.2.2.1 ['a', 'b'] (by decide)⟩

/-- Claim C7: `preferred_in A B` returns the first token of `A`'s iteration
order (split on `,`, empty tokens dropped) that occurs anywhere in `B`'s
iteration order, and `none` exactly when no token of `A` occurs in `B`;
in particular `preferred_in A A` is `A`'s first token when `A` has one. -/
theorem claim7_preferred_in (a b : List Char) :
    (∀ t, NameList.preferred_in a b = some t →
      ∃ p q, NameList.tokens a = p ++ t :: q ∧ t ∈ NameList.tokens b
        ∧ ∀ u ∈ p, u ∉ NameList.tokens b)
    ∧ (NameList.preferred_in a b = none ↔
        ∀ t ∈ NameList.tokens a, t ∉ NameList.tokens b)
    ∧ (NameList.tokens a ≠ [] →
        NameList.preferred_in a a = (NameList.tokens a).head?) := by
  refine ⟨?_, ?_, ?_⟩
  · intro t ht
    obtain ⟨p, q, hl, hp, hs⟩ := find?_decomp _ _ _ ht
    refine ⟨p, q, hl, (any_beq_iff_mem _ _).mp hp, fun u hu => ?_⟩
    intro hmem
    have hfalse := hs u hu
    have htrue := (any_beq_iff_mem (NameList.tokens b) u).mpr hmem
    rw [hfalse] at htrue
    exact Bool.false_ne_true htrue
  · rw [NameList.preferred_in, List.find?_eq_none]
    constructor
    · intro h t ht hmem
      exact h t ht ((any_beq_iff_mem _ _).mpr hmem)
    · intro h t ht hp
      exact h t ht ((any_beq_iff_mem _ _).mp hp)
  · intro hne
    rcases he : NameList.tokens a with _ | ⟨x, l⟩
    · exact absurd he hne
    · rw [NameList.preferred_in, he]
      rw [List.find?_cons_of_pos]
      · rfl
      · exact (any_beq_iff_mem _ _).mpr (he ▸ List.mem_cons_self x l)

/-- Claim C7 witness: `preferred_in` of `"zlib,none"` against itself
returns its first token `"zlib"`. -/
theorem claim7_witness :
    NameList.tokens ['z', 'l', 'i', 'b', ',', 'n', 'o', 'n', 'e'] ≠ []
    ∧ NameList.preferred_in ['z', 'l', 'i', 'b', ',', 'n', 'o', 'n', 'e']
        ['z', 'l', 'i', 'b', ',', 'n', 'o', 'n', 'e'] =
      (NameList.tokens ['z', 'l', 'i', 'b', ',', 'n', 'o', 'n', 'e']).head? :=
  ⟨by decide,
   (claim7_preferred_in ['z', 'l', 'i', 'b', ',', 'n', 'o', 'n', 'e']
     ['z', 'l', 'i', 'b', ',', 'n', 'o', 'n', 'e']).2.2 (by decide)⟩

/-- Claim C2, counterexample: at block size `256`, ETM, payload length
`255`, the reference algorithm yields `256`, but `CipherCore::padding`
returns that value cast `as u8`, i.e. `0` — neither equal to the reference
value nor within `[4, 255]`. -/
theorem claim2_counterexample :
    ¬ (CipherCore.padding 256 true 255 = CipherCore.paddingSpec 256 true 255
      ∧ 4 ≤ CipherCore.padding 256 true 255) := by decide

/-- Claim C2 (amended): for every block size `Bs ≤ 252` (so the result
fits in a byte), every ETM flag and payload length, `CipherCore::padding`
returns exactly the reference value: `p0` minimal with
`(header + L + p0) % align = 0`, bumped by `align` when below the 4-byte
minimum, bumped once more when the frame stays below `max(Bs, 16)`; the
result lies in `[4, 255]` and makes `header + L + result` a multiple of
`align`.  (For larger block sizes the `as u8` cast truncates.) -/
theorem claim2_padding (bs : Nat) (etm : Bool) (l : Nat) (hbs : bs ≤ 252) :
    CipherCore.padding bs etm l = CipherCore.paddingSpec bs etm l
    ∧ 4 ≤ CipherCore.padding bs etm l
    ∧ CipherCore.padding bs etm l ≤ 255
    ∧ (CipherCore.headerLen etm + l + CipherCore.padding bs etm l) % max bs 8 = 0
    ∧ (CipherCore.headerLen etm + l
        + CipherCore.minPad (CipherCore.headerLen etm + l) (max bs 8)) % max bs 8 = 0
    ∧ ∀ q, (CipherCore.headerLen etm + l + q) % max bs 8 = 0 →
        CipherCore.minPad (CipherCore.headerLen etm + l) (max bs 8) ≤ q := by
  obtain ⟨h4, hmod, hle⟩ := CipherCore.paddingSpec_props bs etm l
  have hle' := hle hbs
  have heq : CipherCore.padding bs etm l = CipherCore.paddingSpec bs etm l := by
    rw [CipherCore.padding_eq_paddingSpec_mod, Nat.mod_eq_of_lt (by omega)]
  have halpos : 0 < max bs 8 := by
    have := le_max_right bs 8
    omega
  refine ⟨heq, by omega, by omega, by rw [heq]; exact hmod,
    CipherCore.minPad_mod _ _ halpos, fun q hq => CipherCore.minPad_minimal _ _ halpos q hq⟩

/-- Claim C2 witness: the amended statement at block size 16, non-ETM,
empty payload. -/
theorem claim2_witness :
    (16 : Nat) ≤ 252
    ∧ (CipherCore.padding 16 false 0 = CipherCore.paddingSpec 16 false 0
      ∧ 4 ≤ CipherCore.padding 16 false 0
      ∧ CipherCore.padding 16 false 0 ≤ 255
      ∧ (CipherCore.headerLen false + 0 + CipherCore.padding 16 false 0) % max 16 8 = 0
      ∧ (CipherCore.headerLen false + 0
          + CipherCore.minPad (CipherCore.headerLen false + 0) (max 16 8)) % max 16 8 = 0
      ∧ ∀ q, (CipherCore.headerLen false + 0 + q) % max 16 8 = 0 →
          CipherCore.minPad (CipherCore.headerLen false + 0) (max 16 8) ≤ q) :=
  ⟨by decide, claim2_padding 16 false 0 (by decide)⟩

/-- Claim C3: on every read that reaches the cipher stage, in ETM mode the
first block is left undecrypted, the MAC is verified over the raw
`length ‖ ciphertext` frame before any decryption, and decryption (when the
MAC verifies) is applied exactly to the bytes after the 4-byte length
field; in non-ETM mode the first block is decrypted before the length is
interpreted, the remaining bytes are decrypted next, and the MAC is
verified last over the full plaintext frame. -/
theorem claim3_read_order (c : OpeningCipher) (s : List Nat) (q : Nat)
    (hb4 : 4 ≤ c.blockSize)
    (hbl : c.blockSize ≤ 4 + Packet.declLen c s)
    (hmax : Packet.declLen c s ≤ 65535)
    (hs : 4 + Packet.declLen c s + c.macSize ≤ s.length) :
    (c.etm = true →
      (Packet.fromAsyncReader c s q).2.1 =
        [COp.readBytes c.blockSize,
         COp.readBytes (4 + Packet.declLen c s - c.blockSize),
         COp.readBytes c.macSize,
         COp.openOp (Packet.rawFrame c s) (Packet.macBytes c s)]
        ++ (if c.openBuf (Packet.rawFrame c s) (Packet.macBytes c s) q then
            [COp.decryptOp ((Packet.rawFrame c s).drop 4)] else []))
    ∧ (c.etm = false →
      (Packet.fromAsyncReader c s q).2.1 =
        [COp.readBytes c.blockSize,
         COp.decryptOp (s.take c.blockSize),
         COp.readBytes (4 + Packet.declLen c s - c.blockSize),
         COp.readBytes c.macSize,
         COp.decryptOp ((Packet.rawFrame c s).drop c.blockSize),
         COp.openOp ((Packet.rawFrame c s).take c.blockSize
            ++ c.decrypt ((Packet.rawFrame c s).drop c.blockSize))
           (Packet.macBytes c s)]) := by
  have hsl : c.blockSize ≤ s.length := by omega
  have h1 : ¬ s.length < c.blockSize := by omega
  have hdb := declBuf_length c s hsl
  have h2 : ¬ (Packet.declBuf c s).length < 4 := by omega
  have h3 : ¬ 65535 < Packet.declLen c s := by omega
  have h4 : ¬ 4 + Packet.declLen c s < c.blockSize := by omega
  have h5 : ¬ s.length - c.blockSize < 4 + Packet.declLen c s - c.blockSize := by
    omega
  have h6 : ¬ s.length - (c.blockSize + (4 + Packet.declLen c s - c.blockSize))
      < c.macSize := by
    omega
  unfold Packet.rawFrame Packet.macBytes
  constructor
  · intro he
    by_cases ho : c.openBuf
        (Packet.declBuf c s ++ (s.drop c.blockSize).take
          (4 + Packet.declLen c s - c.blockSize))
        (List.take c.macSize
          (List.drop (c.blockSize + (4 + Packet.declLen c s - c.blockSize)) s)) q
    · simp [Packet.fromAsyncReader, h1, h2, h3, h4, h5, h6, he, ho, parseBody_trace]
    · simp [Packet.fromAsyncReader, h1, h2, h3, h4, h5, h6, he, ho]
  · intro he
    by_cases ho : c.openBuf
        ((Packet.declBuf c s ++ (s.drop c.blockSize).take
          (4 + Packet.declLen c s - c.blockSize)).take c.blockSize
         ++ c.decrypt ((Packet.declBuf c s ++ (s.drop c.blockSize).take
          (4 + Packet.declLen c s - c.blockSize)).drop c.blockSize))
        (List.take c.macSize
          (List.drop (c.blockSize + (4 + Packet.declLen c s - c.blockSize)) s)) q
    · simp [Packet.fromAsyncReader, h1, h2, h3, h4, h5, h6, he, ho, parseBody_trace]
    · simp [Packet.fromAsyncReader, h1, h2, h3, h4, h5, h6, he, ho]

/-- Claim C3 witness: the ETM trace at a concrete identity cipher and a
well-formed 16-byte frame. -/
theorem claim3_witness :
    cipherC3.etm = true
    ∧ (Packet.fromAsyncReader cipherC3 streamC3 0).2.1 =
      [COp.readBytes 8, COp.readBytes 8, COp.readBytes 0,
       COp.openOp streamC3 [], COp.decryptOp (streamC3.drop 4)] :=
  ⟨rfl, by
    have h := (claim3_read_order cipherC3 streamC3 0 (by decide) (by decide)
      (by decide) (by decide)).1 rfl
    exact h⟩

/-- Claim C9: for every opening cipher whose block size exceeds
`4 + packet_length` (the declared length at most `PACKET_MAX_SIZE`),
`Packet::from_async_reader` panics at the slice
`buf[cipher.block_size()..]` taken after resizing the buffer to
`4 + packet_length` bytes; when `4 + packet_length ≥ block_size()` that
panic cannot occur. -/
theorem claim9_panic (c : OpeningCipher) (s : List Nat) (q : Nat) :
    (c.blockSize ≤ s.length → Packet.declLen c s ≤ 65535 →
      4 + Packet.declLen c s < c.blockSize →
      (Packet.fromAsyncReader c s q).1 = ReadResult.panicRestSlice)
    ∧ (c.blockSize ≤ 4 + Packet.declLen c s →
      (Packet.fromAsyncReader c s q).1 ≠ ReadResult.panicRestSlice) := by
  constructor
  · intro hsl hmax hlt
    have h1 : ¬ s.length < c.blockSize := by omega
    have hdb := declBuf_length c s hsl
    have h2 : ¬ (Packet.declBuf c s).length < 4 := by omega
    have h3 : ¬ 65535 < Packet.declLen c s := by omega
    simp [Packet.fromAsyncReader, h1, h2, h3, hlt]
  · intro hge hcontra
    by_cases h1 : s.length < c.blockSize
    · simp [Packet.fromAsyncReader, h1] at hcontra
    by_cases h2 : (Packet.declBuf c s).length < 4
    · simp [Packet.fromAsyncReader, h1, h2] at hcontra
    by_cases h3 : 65535 < Packet.declLen c s
    · simp [Packet.fromAsyncReader, h1, h2, h3] at hcontra
    have h4 : ¬ 4 + Packet.declLen c s < c.blockSize := by omega
    by_cases h5 : s.length - c.blockSize < 4 + Packet.declLen c s - c.blockSize
    · simp [Packet.fromAsyncReader, h1, h2, h3, h4, h5] at hcontra
    by_cases h6 : s.length - (c.blockSize + (4 + Packet.declLen c s - c.blockSize))
        < c.macSize
    · simp [Packet.fromAsyncReader, h1, h2, h3, h4, h5, h6] at hcontra
    simp only [Packet.fromAsyncReader, h1, h2, h3, h4, h5, h6, if_false,
      ite_false] at hcontra
    repeat' split at hcontra
    all_goals
      first
        | exact absurd hcontra (parseBody_fst_ne_panicRest _ _ _ _ _)
        | simp at hcontra

/-- Claim C9 witness: the panic at a concrete block-size-16 cipher and a
stream declaring length 0. -/
theorem claim9_witness :
    (cipherC9.blockSize ≤ streamC9.length
      ∧ Packet.declLen cipherC9 streamC9 ≤ 65535
      ∧ 4 + Packet.declLen cipherC9 streamC9 < cipherC9.blockSize)
    ∧ (Packet.fromAsyncReader cipherC9 streamC9 0).1 = ReadResult.panicRestSlice :=
  ⟨⟨by decide, by decide, by decide⟩,
   (claim9_panic cipherC9 streamC9 0).1 (by decide) (by decide) (by decide)⟩

/-- Claim C4, counterexample: in non-ETM mode `Packet::to_async_writer`
calls `seal` on the plaintext frame before `encrypt` — the seal operation
strictly precedes the encryption in the trace, so encryption does not
precede the seal call in both modes. -/
theorem claim4_counterexample :
    (Packet.toAsyncWriter cipherC4 [1, 2, 3] 0).2 =
      [COp.compressOp [1, 2, 3], COp.padOp [1, 2, 3] 8,
       COp.sealOp [0, 0, 0, 4, 8, 1, 2, 3], COp.encryptOp [0, 0, 0, 4, 8, 1, 2, 3]]
    ∧ (Packet.toAsyncWriter cipherC4 [1, 2, 3] 0).2.findIdx isSealOp
        < (Packet.toAsyncWriter cipherC4 [1, 2, 3] 0).2.findIdx isEncryptOp := by
  decide

/-- Claim C4 (amended): on every successful write the steps are: compress
the payload, compute the padding with `CipherCore::padding` over the
compressed length, `pad` to build the frame, length-prefix it, then in ETM
mode encrypt the bytes after the length field and seal the result, while
in non-ETM mode seal the plaintext frame first and encrypt the whole frame
afterwards; the frame is emitted followed by the MAC. -/
theorem claim4_write_order (c : SealingCipher) (payload : List Nat) (q : Nat)
    (compressed padded : List Nat)
    (hcomp : c.compress payload = some compressed)
    (hpad : c.padBuf compressed
        (CipherCore.padding c.blockSize c.etm compressed.length) = some padded) :
    (c.etm = true → ∀ mac,
      c.sealBuf ((u32beBytes padded.length ++ padded).take 4
        ++ c.encrypt ((u32beBytes padded.length ++ padded).drop 4)) q = some mac →
      Packet.toAsyncWriter c payload q =
        (.ok (((u32beBytes padded.length ++ padded).take 4
            ++ c.encrypt ((u32beBytes padded.length ++ padded).drop 4)) ++ mac),
         [COp.compressOp payload,
          COp.padOp compressed (CipherCore.padding c.blockSize c.etm compressed.length),
          COp.encryptOp ((u32beBytes padded.length ++ padded).drop 4),
          COp.sealOp ((u32beBytes padded.length ++ padded).take 4
            ++ c.encrypt ((u32beBytes padded.length ++ padded).drop 4))]))
    ∧ (c.etm = false → ∀ mac,
      c.sealBuf (u32beBytes padded.length ++ padded) q = some mac →
      Packet.toAsyncWriter c payload q =
        (.ok (c.encrypt (u32beBytes padded.length ++ padded) ++ mac),
         [COp.compressOp payload,
          COp.padOp compressed (CipherCore.padding c.blockSize c.etm compressed.length),
          COp.sealOp (u32beBytes padded.length ++ padded),
          COp.encryptOp (u32beBytes padded.length ++ padded)])) := by
  constructor
  · intro he mac hseal
    rw [he] at hpad
    simp [Packet.toAsyncWriter, hcomp, hpad, he, hseal]
  · intro he mac hseal
    rw [he] at hpad
    simp [Packet.toAsyncWriter, hcomp, hpad, he, hseal]

/-- Claim C4 witness: the ETM write at a concrete cipher and payload. -/
theorem claim4_witness :
    cipherC4w.etm = true
    ∧ Packet.toAsyncWriter cipherC4w [1, 2, 3] 0 =
      (.ok [0, 0, 0, 4, 12, 1, 2, 3, 7],
       [COp.compressOp [1, 2, 3], COp.padOp [1, 2, 3] 12,
        COp.encryptOp [12, 1, 2, 3], COp.sealOp [0, 0, 0, 4, 12, 1, 2, 3]]) :=
  ⟨rfl, by
    have h := (claim4_write_order cipherC4w [1, 2, 3] 0 [1, 2, 3] [12, 1, 2, 3]
      (by decide) (by decide)).1 rfl [7] (by decide)
    exact h⟩


end Ssh
